import Mathlib

/-!
Verification development for the SPH-EXA space-filling-curve octree
domain-decomposition engine and its propagator/initializer interface.

The decomposition core (SFC key codec, cornerstone octree builder, load
balancer, halo discovery) is specified in spec.md sections 3, 4 and 8; the
repository sources under scrutiny contain its consumers
(`main/src/propagator/ipropagator.hpp`, the Kelvin-Helmholtz initializer
and file writers).  Definitions for the core are therefore modelled from
the specification text; definitions for the consumers are shallow
embeddings of the C++ sources.
-/

/-! ### Cornerstone octree builder (spec section 4.2)

Keys are SFC keys: naturals below `8 ^ maxLevel`.  A leaf is a half-open
key range `(start, end)`.  A cornerstone tree is the ordered list of its
leaf ranges. -/

/-- Modelled from the spec: "recompute leaf particle counts via a counting
pass" (4.2).  Number of particle keys falling in the half-open range
`[a, b)`. -/
def countKeysInRange (keys : List Nat) (a b : Nat) : Nat :=
  keys.countP (fun k => decide (a ≤ k) && decide (k < b))

/-- Modelled from the spec: "start from ... the single-root tree;
repeatedly split any leaf whose counted particles exceed bucketSize into 8
children" run to its fixed point, written as a top-down recursion (4.2).
`buildRec keys bucketSize a n` resolves the node `[a, a + 8 ^ n)`;
`n` is the number of refinement levels still available before the key
bit-width limit. -/
def buildRec (keys : List Nat) (bucketSize : Nat) : Nat → Nat → List (Nat × Nat)
  | a, 0 => [(a, a + 1)]
  | a, n + 1 =>
    if countKeysInRange keys a (a + 8 ^ (n + 1)) ≤ bucketSize then [(a, a + 8 ^ (n + 1))]
    else
      buildRec keys bucketSize a n ++
      buildRec keys bucketSize (a + 1 * 8 ^ n) n ++
      buildRec keys bucketSize (a + 2 * 8 ^ n) n ++
      buildRec keys bucketSize (a + 3 * 8 ^ n) n ++
      buildRec keys bucketSize (a + 4 * 8 ^ n) n ++
      buildRec keys bucketSize (a + 5 * 8 ^ n) n ++
      buildRec keys bucketSize (a + 6 * 8 ^ n) n ++
      buildRec keys bucketSize (a + 7 * 8 ^ n) n

/-- Modelled from the spec: the cornerstone octree builder (4.2); the full
key space is `[0, 8 ^ maxLevel)` where `maxLevel` is the maximum
refinement depth allowed by the key bit-width. -/
def buildOctree (keys : List Nat) (bucketSize maxLevel : Nat) : List (Nat × Nat) :=
  buildRec keys bucketSize 0 maxLevel

/-- The leaf ranges `l`, in the order listed, tile `[a, b)` exactly: each
range is nonempty, consecutive ranges share their boundary (no gap, no
overlap), the first starts at `a` and the last ends at `b`. -/
def contiguousCover : List (Nat × Nat) → Nat → Nat → Prop
  | [], a, b => a = b
  | r :: rest, a, b => r.1 = a ∧ a < r.2 ∧ contiguousCover rest r.2 b

instance contiguousCover.dec : ∀ (l : List (Nat × Nat)) (a b : Nat),
    Decidable (contiguousCover l a b)
  | [], a, b => by unfold contiguousCover; exact inferInstance
  | r :: rest, a, b => by
      unfold contiguousCover
      have := contiguousCover.dec rest r.2 b
      exact inferInstance

/-! ### Split/fuse iteration of the builder (spec section 4.2)

The spec describes the builder as an iteration: "repeatedly split any leaf
whose counted particles exceed bucketSize into 8 children, and fuse any set
of 8 sibling leaves whose combined count is below bucketSize/8 ...
Must re-run to a fixed point ... bounded by tree depth (bit-width), so
always terminates."  One round of splitting is `splitPass`, one round of
fusing is `fusePass`; a full round is `rebalancePass`. -/

/-- Modelled from the spec: "split any leaf whose counted particles exceed
bucketSize into 8 children" (4.2); a leaf of key-range size one is at the
bit-width limit and cannot be split. -/
def splitLeaf (keys : List Nat) (bucketSize : Nat) (r : Nat × Nat) : List (Nat × Nat) :=
  let s := (r.2 - r.1) / 8
  if bucketSize < countKeysInRange keys r.1 r.2 ∧ r.1 + 1 < r.2 then
    [(r.1, r.1 + s), (r.1 + s, r.1 + 2 * s), (r.1 + 2 * s, r.1 + 3 * s),
     (r.1 + 3 * s, r.1 + 4 * s), (r.1 + 4 * s, r.1 + 5 * s), (r.1 + 5 * s, r.1 + 6 * s),
     (r.1 + 6 * s, r.1 + 7 * s), (r.1 + 7 * s, r.1 + 8 * s)]
  else [r]

/-- Modelled from the spec: one splitting round over all leaves (4.2). -/
def splitPass (keys : List Nat) (bucketSize : Nat) : List (Nat × Nat) → List (Nat × Nat)
  | [] => []
  | r :: rest => splitLeaf keys bucketSize r ++ splitPass keys bucketSize rest

/-- Modelled from the spec: one fusing round: "fuse any set of 8 sibling
leaves whose combined count is below bucketSize/8 (hysteresis to avoid
oscillation)" (4.2).  Eight consecutive leaves form a sibling set when they
are equal-sized, contiguous and aligned on their common parent node. -/
def fusePass (keys : List Nat) (bucketSize : Nat) : List (Nat × Nat) → List (Nat × Nat)
  | r0 :: r1 :: r2 :: r3 :: r4 :: r5 :: r6 :: r7 :: rest =>
    let s := r0.2 - r0.1
    if r0.1 % (8 * s) = 0 ∧
        r1 = (r0.1 + s, r0.1 + 2 * s) ∧ r2 = (r0.1 + 2 * s, r0.1 + 3 * s) ∧
        r3 = (r0.1 + 3 * s, r0.1 + 4 * s) ∧ r4 = (r0.1 + 4 * s, r0.1 + 5 * s) ∧
        r5 = (r0.1 + 5 * s, r0.1 + 6 * s) ∧ r6 = (r0.1 + 6 * s, r0.1 + 7 * s) ∧
        r7 = (r0.1 + 7 * s, r0.1 + 8 * s) ∧
        countKeysInRange keys r0.1 (r0.1 + 8 * s) < bucketSize / 8 then
      (r0.1, r0.1 + 8 * s) :: fusePass keys bucketSize rest
    else r0 :: fusePass keys bucketSize (r1 :: r2 :: r3 :: r4 :: r5 :: r6 :: r7 :: rest)
  | l => l

/-- Modelled from the spec: one full split/fuse round of the builder
iteration (4.2). -/
def rebalancePass (keys : List Nat) (bucketSize : Nat) (l : List (Nat × Nat)) :
    List (Nat × Nat) :=
  fusePass keys bucketSize (splitPass keys bucketSize l)

/-- Structural invariant of the trees the builder iteration produces: every
leaf is an aligned octree node `[a, a + 8 ^ m)` inside the key space, and a
leaf that is the first child of its parent node only exists because that
parent's particle count exceeds the bucket size. -/
def nodeInv (keys : List Nat) (bucketSize maxLevel : Nat) (r : Nat × Nat) : Prop :=
  ∃ m : Nat, m ≤ maxLevel ∧ r.2 = r.1 + 8 ^ m ∧ 8 ^ m ∣ r.1 ∧ r.2 ≤ 8 ^ maxLevel ∧
    (r.1 % 8 ^ (m + 1) = 0 → m < maxLevel →
      bucketSize < countKeysInRange keys r.1 (r.1 + 8 ^ (m + 1)))

/-! ### Global domain decomposer / load balancer (spec section 4.3)

Input: the global cornerstone octree with per-leaf counts; output one
contiguous, leaf-aligned key range per rank via a prefix-sum greedy walk. -/

/-- Cumulative particle count of the first `i` leaves of the tree. -/
def sumTo (counts : List Nat) (i : Nat) : Nat := (counts.take i).sum

/-- Modelled from the spec: the greedy leaf walk of the load balancer (4.3):
the first leaf index at which the running particle total reaches `target`.
When a single leaf overshoots the target, the walk still takes the whole
leaf (ranges stay leaf-aligned; a leaf is never split across ranks). -/
def findCut (counts : List Nat) (target : Nat) : Nat :=
  match counts with
  | [] => 0
  | c :: rest =>
    if target = 0 then 0 else if target ≤ c then 1 else 1 + findCut rest (target - c)

/-- Modelled from the spec: the cut (leaf index) where rank `r`'s range
begins: the walk cuts when the running total would exceed the target
`r * totalCount / numRanks`; the cut after the last rank is the end of the
leaf array (4.3). -/
def rankCut (counts : List Nat) (numRanks r : Nat) : Nat :=
  if numRanks ≤ r then counts.length
  else findCut counts (r * counts.sum / numRanks)

/-- Total particle count of the leaves assigned to rank `r`. -/
def rankLoad (counts : List Nat) (numRanks r : Nat) : Nat :=
  sumTo counts (rankCut counts numRanks (r + 1)) - sumTo counts (rankCut counts numRanks r)

/-- Largest particle count held by any single leaf. -/
def maxLeafCount (counts : List Nat) : Nat := counts.foldr max 0

/-- Modelled from the spec: the rank assignment: `numRanks` SFC key ranges,
delimited by cut keys taken from the cornerstone leaf-boundary key array
`tree` (`tree.length = counts.length + 1`), one per rank in rank order
(4.3). -/
def assignmentRanges (tree : List Nat) (counts : List Nat) (numRanks : Nat) :
    List (Nat × Nat) :=
  (List.range numRanks).map fun r =>
    (tree.getD (rankCut counts numRanks r) 0, tree.getD (rankCut counts numRanks (r + 1)) 0)

/-! ### Full decomposition round, ownership and migration (spec sections
4.2, 4.3, 4.5, 9) -/

/-- Per-leaf particle counts of a cornerstone tree (4.2). -/
def leafCounts (keys : List Nat) (l : List (Nat × Nat)) : List Nat :=
  l.map fun r => countKeysInRange keys r.1 r.2

/-- The leaf-boundary key array of a cornerstone tree: each leaf's start
key plus the final leaf's end key. -/
def leafBoundaries : List (Nat × Nat) → List Nat
  | [] => []
  | [r] => [r.1, r.2]
  | r :: rest => r.1 :: leafBoundaries rest

/-- Modelled from the spec: one full domain-decomposition round (4.2, 4.3,
9): build the global cornerstone octree from the sorted particle keys —
"rebuilt from scratch or warm-started each call" — then compute the rank
assignment from the per-leaf counts. -/
def decomposeDomain (keys : List Nat) (bucketSize maxLevel numRanks : Nat)
    (prev : Option (List (Nat × Nat))) : List (Nat × Nat) × List (Nat × Nat) :=
  let t := match prev with
    | none => buildOctree keys bucketSize maxLevel
    | some t0 => (rebalancePass keys bucketSize)^[maxLevel] t0
  (t, assignmentRanges (leafBoundaries t) (leafCounts keys t) numRanks)

/-- Modelled from the spec: the rank owning key `k` under an assignment:
the index of the assignment range containing `k`. -/
def ownerRank (assignment : List (Nat × Nat)) (k : Nat) : Nat :=
  assignment.findIdx fun r => decide (r.1 ≤ k) && decide (k < r.2)

/-- Modelled from the spec: the particle-migration set (4.5): "particles
whose key has moved outside the local assignment range ... must be
migrated (sent to their new owner)" — the keys whose owner under the new
assignment differs from their current owner. -/
def migrationSet (currentOwner : Nat → Nat) (keys : List Nat)
    (assignment : List (Nat × Nat)) : List Nat :=
  keys.filter fun k => decide (ownerRank assignment k ≠ currentOwner k)

/-! ### SFC key codec (spec sections 3, 4.1)

Coordinates are exact rationals; the codec quantises each axis to `b` bits
and interleaves the three cell indices Morton-style into one key. -/

/-- Per-axis boundary kind of the simulation box (spec section 3). -/
inductive BoundaryKind where
  | openKind : BoundaryKind
  | periodicKind : BoundaryKind
deriving DecidableEq

/-- Modelled from the spec: the global simulation extent on each axis plus
a per-axis boundary kind (section 3). -/
structure SimBox where
  xmin : ℚ
  xmax : ℚ
  ymin : ℚ
  ymax : ℚ
  zmin : ℚ
  zmax : ℚ
  bkx : BoundaryKind
  bky : BoundaryKind
  bkz : BoundaryKind
deriving DecidableEq

/-- A 3D point with rational coordinates. -/
structure Pt3 where
  px : ℚ
  py : ℚ
  pz : ℚ
deriving DecidableEq

/-- Modelled from the spec: per-axis grid quantisation (4.1): the index of
`x` among the `2 ^ b` equal cells of `[lo, hi)`, clamped into range. -/
def gridIndex (lo hi x : ℚ) (b : Nat) : Nat :=
  min (Int.toNat ⌊(x - lo) * (2 ^ b : ℚ) / (hi - lo)⌋) (2 ^ b - 1)

/-- Modelled from the spec: Morton-style bit interleaving of three `b`-bit
cell indices into one SFC key (4.1): at each level the x bit sits above
the y bit above the z bit. -/
def interleave3 : Nat → Nat → Nat → Nat → Nat
  | 0, _, _, _ => 0
  | b + 1, ix, iy, iz =>
    ix % 2 * 4 + iy % 2 * 2 + iz % 2 + 8 * interleave3 b (ix / 2) (iy / 2) (iz / 2)

/-- Inverse of `interleave3`: recover the three cell indices from a key. -/
def deinterleave3 : Nat → Nat → Nat × Nat × Nat
  | 0, _ => (0, 0, 0)
  | b + 1, key =>
    let rest := deinterleave3 b (key / 8)
    (2 * rest.1 + key / 4 % 2, 2 * rest.2.1 + key / 2 % 2, 2 * rest.2.2 + key % 2)

/-- Modelled from the spec: `encode(point, box) -> key` (4.1) at `b` bits
per axis. -/
def encodeKey (b : Nat) (box : SimBox) (p : Pt3) : Nat :=
  interleave3 b (gridIndex box.xmin box.xmax p.px b) (gridIndex box.ymin box.ymax p.py b)
    (gridIndex box.zmin box.zmax p.pz b)

/-- Center and size of grid cell `i` of the axis `[lo, hi)` at `b` bits. -/
def cellCenterSize (lo hi : ℚ) (b i : Nat) : ℚ × ℚ :=
  (lo + ((i : ℚ) + 1 / 2) * (hi - lo) / 2 ^ b, (hi - lo) / 2 ^ b)

/-- Modelled from the spec: `decode(key) -> cell-center-and-size` (4.1):
the per-axis cell center and cell size of the cell a key denotes. -/
def decodeKey (b : Nat) (box : SimBox) (key : Nat) : (ℚ × ℚ) × (ℚ × ℚ) × (ℚ × ℚ) :=
  let idx := deinterleave3 b key
  (cellCenterSize box.xmin box.xmax b idx.1,
   cellCenterSize box.ymin box.ymax b idx.2.1,
   cellCenterSize box.zmin box.zmax b idx.2.2)

/-- Modelled from the spec: periodic axes wrap point coordinates into
`[boxMin, boxMax)` before encoding (4.1). -/
def wrapCoord (lo hi x : ℚ) : ℚ := x - (hi - lo) * ⌊(x - lo) / (hi - lo)⌋

/-- The wrap applied on a periodic axis, the identity on an open axis. -/
def wrapAxis (k : BoundaryKind) (lo hi x : ℚ) : ℚ :=
  match k with
  | BoundaryKind.periodicKind => wrapCoord lo hi x
  | BoundaryKind.openKind => x

/-- Modelled from the spec: encoding with the periodic wrap first applied
on every periodic axis (4.1). -/
def encodeKeyWrapped (b : Nat) (box : SimBox) (p : Pt3) : Nat :=
  encodeKey b box
    ⟨wrapAxis box.bkx box.xmin box.xmax p.px,
     wrapAxis box.bky box.ymin box.ymax p.py,
     wrapAxis box.bkz box.zmin box.zmax p.pz⟩

/-- A concrete periodic box used to exercise the codec. -/
def codecBox : SimBox :=
  ⟨0, 1, 0, 1, 0, 1, BoundaryKind.periodicKind, BoundaryKind.periodicKind,
    BoundaryKind.periodicKind⟩

/-- A concrete point inside `codecBox`. -/
def codecPt : Pt3 := ⟨0, 0, 0⟩

/-! ### Halo discovery (spec section 4.4) -/

/-- An axis-aligned box: a rank assignment's bounding volume or a leaf
cell's geometric extent. -/
structure AABB where
  axmin : ℚ
  axmax : ℚ
  aymin : ℚ
  aymax : ℚ
  azmin : ℚ
  azmax : ℚ
deriving DecidableEq

/-- Squared Euclidean distance between two points. -/
def dist2 (p q : Pt3) : ℚ :=
  (p.px - q.px) ^ 2 + (p.py - q.py) ^ 2 + (p.pz - q.pz) ^ 2

/-- Point containment in a closed axis-aligned box. -/
def inAABB (bb : AABB) (p : Pt3) : Prop :=
  bb.axmin ≤ p.px ∧ p.px ≤ bb.axmax ∧ bb.aymin ≤ p.py ∧ p.py ≤ bb.aymax ∧
    bb.azmin ≤ p.pz ∧ p.pz ≤ bb.azmax

instance (bb : AABB) (p : Pt3) : Decidable (inAABB bb p) := by
  unfold inAABB
  exact inferInstance

/-- Modelled from the spec: "expanding the local range's bounding box by
the maximum local interaction radius" (4.4). -/
def expandAABB (bb : AABB) (r : ℚ) : AABB :=
  ⟨bb.axmin - r, bb.axmax + r, bb.aymin - r, bb.aymax + r, bb.azmin - r, bb.azmax + r⟩

/-- Geometric overlap test between two closed axis-aligned boxes. -/
def overlaps (u v : AABB) : Bool :=
  decide (u.axmin ≤ v.axmax) && decide (v.axmin ≤ u.axmax) &&
  decide (u.aymin ≤ v.aymax) && decide (v.aymin ≤ u.aymax) &&
  decide (u.azmin ≤ v.azmax) && decide (v.azmin ≤ u.azmax)

/-- Modelled from the spec: the periodic images tested on one axis of the
global box (4.4: "Periodic boxes require testing wrapped images of
boundary cells"): on a periodic axis a cell is additionally tested shifted
by minus and plus one full box period; an open axis has only the unshifted
image.  For points inside the box, the minimum-image displacement on an
axis is always one of these three shifts. -/
def axisShifts (k : BoundaryKind) (lo hi : ℚ) : List ℚ :=
  match k with
  | BoundaryKind.periodicKind => [-(hi - lo), 0, hi - lo]
  | BoundaryKind.openKind => [0]

/-- Shift a point by an axis-aligned displacement. -/
def shiftPt (p : Pt3) (sx sy sz : ℚ) : Pt3 := ⟨p.px + sx, p.py + sy, p.pz + sz⟩

/-- Shift an axis-aligned box by an axis-aligned displacement. -/
def shiftAABB (bb : AABB) (sx sy sz : ℚ) : AABB :=
  ⟨bb.axmin + sx, bb.axmax + sx, bb.aymin + sy, bb.aymax + sy,
    bb.azmin + sz, bb.azmax + sz⟩

/-- Modelled from the spec: overlap test of a box against every wrapped
image of a cell under the global box's per-axis boundary kinds (4.4). -/
def overlapsWithImages (gbox : SimBox) (u cell : AABB) : Bool :=
  (axisShifts gbox.bkx gbox.xmin gbox.xmax).any fun sx =>
    (axisShifts gbox.bky gbox.ymin gbox.ymax).any fun sy =>
      (axisShifts gbox.bkz gbox.zmin gbox.zmax).any fun sz =>
        overlaps u (shiftAABB cell sx sy sz)

/-- Modelled from the spec: halo discovery (4.4): from the list of all
leaf cells tagged with their owning rank, keep the cells of other ranks
any of whose wrapped images overlaps the local assignment's bounding box
expanded by the maximum local interaction radius; on periodic axes of the
global box the wrapped images of each cell are tested as well. -/
def haloCells (gbox : SimBox) (myRank : Nat) (localBox : AABB) (maxRadius : ℚ)
    (cells : List (Nat × AABB)) : List (Nat × AABB) :=
  cells.filter fun c =>
    decide (c.1 ≠ myRank) && overlapsWithImages gbox (expandAABB localBox maxRadius) c.2

/-! ### Domain sync layout and the propagator consumers
(spec section 6; `main/src/propagator/ipropagator.hpp`;
`KelvinHelmholtzGlass::init`) -/

/-- Modelled from the spec (section 6): the domain state a `sync()` call
establishes, generic in the particle payload: the owned particles followed
by the read-only halo copies. -/
structure DomainState (α : Type) where
  owned : List α
  halos : List α

/-- Modelled from the spec: `sync()` returns the updated local particle
count and halo count and lays the local array out as owned particles then
halo particles (section 6). -/
def DomainState.sync {α : Type} (owned halos : List α) : DomainState α := ⟨owned, halos⟩

/-- The local particle array after `sync()`: owned at `[0, localCount)`,
halos at `[localCount, localCount + haloCount)`. -/
def DomainState.particleArray {α : Type} (d : DomainState α) : List α := d.owned ++ d.halos

/-- `Domain::nParticles()`: the owned particle count. -/
def DomainState.nParticles {α : Type} (d : DomainState α) : Nat := d.owned.length

/-- `Domain::nParticlesWithHalos()`: owned plus halo count. -/
def DomainState.nParticlesWithHalos {α : Type} (d : DomainState α) : Nat :=
  d.owned.length + d.halos.length

/-- Shallow embedding of the halo count computed in
`Propagator::printIterationTimings` (ipropagator.hpp line 124):
`auto haloCount = domain.nParticlesWithHalos() - domain.nParticles()`. -/
def printedHaloCount {α : Type} (d : DomainState α) : Nat :=
  d.nParticlesWithHalos - d.nParticles

/-- Shallow embedding of the box computation in `KelvinHelmholtzGlass::init`
(the Kelvin-Helmholtz initializer source): the function constructs
`cstone::Box<T> globalBox(0, 1, 0, 1, 0, 0.0625, pbc, pbc, pbc)` from
numeric literals with `pbc = cstone::BoundaryType::periodic` and returns
`globalBox` unconditionally; the `rank`, `numRanks` and `cbrtNumPart`
arguments never flow into the returned box (they only drive particle
generation and file reading, which the return value does not depend on). -/
def kelvinHelmholtzGlassInitBox (rank numRanks cbrtNumPart : Nat) : SimBox :=
  ⟨0, 1, 0, 1, 0, 1 / 16, BoundaryKind.periodicKind, BoundaryKind.periodicKind,
    BoundaryKind.periodicKind⟩

/-- Shallow embedding of `Propagator::getSelectedParticleIndexes`
(ipropagator.hpp lines 149-169): for each requested id in order,
`std::find` yields the first position of that id in the local id field —
or the field's size when the id is absent, exactly `List.findIdx` — and
the position is appended to the result when it is in range. -/
def getSelectedParticleIndexes (selParticlesIds : List Nat)
    (localParticleIds : List Nat) : List Nat :=
  selParticlesIds.foldl
    (fun acc selParticleId =>
      let selParticleIndex := localParticleIds.findIdx fun x => x == selParticleId
      if selParticleIndex < localParticleIds.length then acc ++ [selParticleIndex] else acc)
    []

theorem contiguousCover_le {l : List (Nat × Nat)} {a b : Nat}
    (h : contiguousCover l a b) : a ≤ b := by
  induction l generalizing a with
  | nil => simp only [contiguousCover] at h; omega
  | cons r rest ih =>
    obtain ⟨-, h2, h3⟩ := h
    exact le_trans (le_of_lt h2) (ih h3)

theorem contiguousCover_append {l₁ l₂ : List (Nat × Nat)} {a m b : Nat}
    (h₁ : contiguousCover l₁ a m) (h₂ : contiguousCover l₂ m b) :
    contiguousCover (l₁ ++ l₂) a b := by
  induction l₁ generalizing a with
  | nil =>
    simp only [contiguousCover] at h₁
    simpa [h₁] using h₂
  | cons r rest ih => exact ⟨h₁.1, h₁.2.1, ih h₁.2.2⟩

theorem contiguousCover_mem_bounds {l : List (Nat × Nat)} {a b : Nat}
    (h : contiguousCover l a b) {r : Nat × Nat} (hr : r ∈ l) :
    a ≤ r.1 ∧ r.1 < r.2 ∧ r.2 ≤ b := by
  induction l generalizing a with
  | nil => cases hr
  | cons s rest ih =>
    obtain ⟨h1, h2, h3⟩ := h
    rcases List.mem_cons.mp hr with hr | hr
    · subst hr
      exact ⟨h1.ge, h1 ▸ h2, contiguousCover_le h3⟩
    · obtain ⟨u1, u2, u3⟩ := ih h3 hr
      exact ⟨le_trans (le_of_lt (h1 ▸ h2)) u1, u2, u3⟩

theorem buildRec_cover (keys : List Nat) (bucketSize : Nat) (a n : Nat) :
    contiguousCover (buildRec keys bucketSize a n) a (a + 8 ^ n) := by
  induction n generalizing a with
  | zero => exact ⟨rfl, by omega, rfl⟩
  | succ n ih =>
    have hp : 0 < 8 ^ (n + 1) := Nat.pos_pow_of_pos _ (by omega)
    rw [buildRec]
    split
    · exact ⟨rfl, by omega, rfl⟩
    · have step : ∀ i : Nat, a + i * 8 ^ n + 8 ^ n = a + (i + 1) * 8 ^ n := by
        intro i; ring
      have c0 : contiguousCover (buildRec keys bucketSize a n) a (a + 1 * 8 ^ n) := by
        have := ih a; rwa [show a + 8 ^ n = a + 1 * 8 ^ n by ring] at this
      have c : ∀ i : Nat, contiguousCover (buildRec keys bucketSize (a + i * 8 ^ n) n)
          (a + i * 8 ^ n) (a + (i + 1) * 8 ^ n) := by
        intro i
        have := ih (a + i * 8 ^ n); rwa [step i] at this
      simp only [List.append_assoc]
      have t7 := c 7
      have t67 := contiguousCover_append (c 6) t7
      have t57 := contiguousCover_append (c 5) t67
      have t47 := contiguousCover_append (c 4) t57
      have t37 := contiguousCover_append (c 3) t47
      have t27 := contiguousCover_append (c 2) t37
      have t17 := contiguousCover_append (c 1) t27
      have t07 := contiguousCover_append c0 t17
      rwa [show a + (7 + 1) * 8 ^ n = a + 8 ^ (n + 1) by ring] at t07

theorem contiguousCover_unique_mem {l : List (Nat × Nat)} {a b k : Nat}
    (h : contiguousCover l a b) (hak : a ≤ k) (hkb : k < b) :
    ∃! r : Nat × Nat, r ∈ l ∧ r.1 ≤ k ∧ k < r.2 := by
  induction l generalizing a with
  | nil => simp only [contiguousCover] at h; omega
  | cons s rest ih =>
    obtain ⟨h1, h2, h3⟩ := h
    by_cases hk : k < s.2
    · refine ⟨s, ⟨List.mem_cons_self _ _, h1 ▸ hak, hk⟩, ?_⟩
      rintro r ⟨hmem, hrk, hkr⟩
      rcases List.mem_cons.mp hmem with hcase | hcase
      · exact hcase
      · obtain ⟨u1, -, -⟩ := contiguousCover_mem_bounds h3 hcase
        omega
    · obtain ⟨r, ⟨hr1, hr2, hr3⟩, hru⟩ := ih h3 (by omega)
      refine ⟨r, ⟨List.mem_cons_of_mem _ hr1, hr2, hr3⟩, ?_⟩
      rintro r' ⟨hmem, hrk, hkr⟩
      rcases List.mem_cons.mp hmem with hcase | hcase
      · subst hcase; omega
      · exact hru r' ⟨hcase, hrk, hkr⟩

/-- **C1.** For every input set of particle keys, the cornerstone octree's
leaf key ranges exactly partition the full SFC key space `[0, 8 ^ maxLevel)`:
listed in key order the ranges are nonempty and consecutive ranges share a
boundary (no gap, no overlap) from `0` to `8 ^ maxLevel`, and every key in
the space — in particular every particle's key — falls in exactly one leaf
range. -/
theorem octree_leaves_partition_keyspace (keys : List Nat) (bucketSize maxLevel : Nat) :
    contiguousCover (buildOctree keys bucketSize maxLevel) 0 (8 ^ maxLevel) ∧
    ∀ k : Nat, k < 8 ^ maxLevel →
      ∃! r : Nat × Nat, r ∈ buildOctree keys bucketSize maxLevel ∧ r.1 ≤ k ∧ k < r.2 := by
  have h := buildRec_cover keys bucketSize 0 maxLevel
  rw [Nat.zero_add] at h
  exact ⟨h, fun k hk => contiguousCover_unique_mem h (Nat.zero_le k) hk⟩

/-- Witness for C1: on the particle keys `[1, 5]` with bucket size 1 and one
refinement level, the leaf ranges tile `[0, 8)` and key `3` lies in exactly
one leaf. -/
theorem octree_leaves_partition_keyspace_witness :
    contiguousCover (buildOctree [1, 5] 1 1) 0 (8 ^ 1) ∧
    ∃! r : Nat × Nat, r ∈ buildOctree [1, 5] 1 1 ∧ r.1 ≤ 3 ∧ 3 < r.2 :=
  ⟨(octree_leaves_partition_keyspace [1, 5] 1 1).1,
   (octree_leaves_partition_keyspace [1, 5] 1 1).2 3 (by decide)⟩

/-! ### Bucket-size bound on leaves (spec sections 4.2, 7c, 8) -/

theorem buildRec_leaf_bound (keys : List Nat) (bucketSize : Nat) (a n : Nat) :
    ∀ r ∈ buildRec keys bucketSize a n,
      countKeysInRange keys r.1 r.2 ≤ bucketSize ∨ r.2 = r.1 + 1 := by
  induction n generalizing a with
  | zero =>
    intro r hr
    rw [buildRec] at hr
    rcases List.mem_singleton.mp hr with rfl
    exact Or.inr rfl
  | succ n ih =>
    intro r hr
    rw [buildRec] at hr
    split at hr
    · rcases List.mem_singleton.mp hr with rfl
      exact Or.inl (by assumption)
    · simp only [List.mem_append] at hr
      rcases hr with ((((((hr | hr) | hr) | hr) | hr) | hr) | hr) | hr <;>
        exact ih _ r hr

theorem countKeysInRange_replicate (n c a b : Nat) :
    countKeysInRange (List.replicate n c) a b = if a ≤ c ∧ c < b then n else 0 := by
  induction n with
  | zero => simp [countKeysInRange]
  | succ n ih =>
    rw [countKeysInRange, List.replicate_succ, List.countP_cons]
    rw [countKeysInRange] at ih
    by_cases h : a ≤ c ∧ c < b
    · simp [ih, h]
    · simp only [ih, if_neg h]
      rw [Decidable.not_and_iff_or_not] at h
      rcases h with h | h <;> simp [h]

theorem octree_single_point_cluster :
    buildOctree (List.replicate 10000 3) 100 1 =
      [(0, 1), (1, 2), (2, 3), (3, 4), (4, 5), (5, 6), (6, 7), (7, 8)] := by
  have hc : countKeysInRange (List.replicate 10000 3) 0 (0 + 8 ^ 1) = 10000 := by
    rw [countKeysInRange_replicate]
    norm_num
  rw [buildOctree, buildRec, hc]
  norm_num [buildRec]

/-- **C4.** For every input key sequence and every positive bucket size, no
leaf of the cornerstone octree holds more than `bucketSize` particles except
leaves already at the maximum refinement depth (key range of size one, the
bit-width limit), which may hold more; in particular one coordinate repeated
10000 times with bucket size 100 yields the leaf `(3, 4)` at maximum depth
holding all 10000 particles, accepted by the (total) builder rather than
rejected. -/
theorem octree_bucket_bound_with_max_depth_exception :
    (∀ (keys : List Nat) (bucketSize maxLevel : Nat), 0 < bucketSize →
      ∀ r ∈ buildOctree keys bucketSize maxLevel,
        countKeysInRange keys r.1 r.2 ≤ bucketSize ∨ r.2 = r.1 + 1) ∧
    ((3, 4) ∈ buildOctree (List.replicate 10000 3) 100 1 ∧
      countKeysInRange (List.replicate 10000 3) 3 4 = 10000 ∧ 100 < 10000) := by
  refine ⟨fun keys bucketSize maxLevel _ => buildRec_leaf_bound keys bucketSize 0 maxLevel, ?_, ?_, ?_⟩
  · rw [octree_single_point_cluster]
    norm_num
  · rw [countKeysInRange_replicate]
    norm_num
  · norm_num

/-- Witness for C4: the general bound applied to keys `[2, 2, 2]`, bucket
size 1, one refinement level, at the max-depth leaf `(2, 3)`. -/
theorem octree_bucket_bound_with_max_depth_exception_witness :
    (0 : Nat) < 1 ∧ (2, 3) ∈ buildOctree [2, 2, 2] 1 1 ∧
      (countKeysInRange [2, 2, 2] 2 3 ≤ 1 ∨ 3 = 2 + 1) :=
  ⟨by decide, by decide,
    octree_bucket_bound_with_max_depth_exception.1 [2, 2, 2] 1 1 (by decide) (2, 3) (by decide)⟩

theorem splitPass_append (keys : List Nat) (bucketSize : Nat) (l₁ l₂ : List (Nat × Nat)) :
    splitPass keys bucketSize (l₁ ++ l₂) =
      splitPass keys bucketSize l₁ ++ splitPass keys bucketSize l₂ := by
  induction l₁ with
  | nil => rfl
  | cons r rest ih => simp [splitPass, ih]

theorem splitPass_iterate_append (keys : List Nat) (bucketSize m : Nat)
    (l₁ l₂ : List (Nat × Nat)) :
    (splitPass keys bucketSize)^[m] (l₁ ++ l₂) =
      (splitPass keys bucketSize)^[m] l₁ ++ (splitPass keys bucketSize)^[m] l₂ := by
  induction m generalizing l₁ l₂ with
  | zero => rfl
  | succ m ih =>
    rw [Function.iterate_succ_apply, Function.iterate_succ_apply,
      Function.iterate_succ_apply, splitPass_append, ih]

theorem splitPass_iterate_stable (keys : List Nat) (bucketSize m a b : Nat)
    (h : ¬(bucketSize < countKeysInRange keys a b ∧ a + 1 < b)) :
    (splitPass keys bucketSize)^[m] [(a, b)] = [(a, b)] := by
  induction m with
  | zero => rfl
  | succ m ih =>
    rw [Function.iterate_succ_apply]
    have : splitPass keys bucketSize [(a, b)] = [(a, b)] := by
      simp [splitPass, splitLeaf, h]
    rw [this, ih]

theorem splitPass_iterate_buildRec (keys : List Nat) (bucketSize : Nat) (a n : Nat) :
    (splitPass keys bucketSize)^[n] [(a, a + 8 ^ n)] = buildRec keys bucketSize a n := by
  induction n generalizing a with
  | zero => rfl
  | succ n ih =>
    by_cases hc : countKeysInRange keys a (a + 8 ^ (n + 1)) ≤ bucketSize
    · rw [splitPass_iterate_stable keys bucketSize (n + 1) a _ (by omega), buildRec, if_pos hc]
    · push_neg at hc
      have hone : (1 : Nat) < 8 ^ (n + 1) := by
        calc (1 : Nat) < 8 := by omega
        _ ≤ 8 ^ (n + 1) := Nat.le_self_pow (by omega) 8
      have hsplit : splitPass keys bucketSize [(a, a + 8 ^ (n + 1))] =
          [(a, a + 8 ^ n), (a + 8 ^ n, a + 2 * 8 ^ n), (a + 2 * 8 ^ n, a + 3 * 8 ^ n),
           (a + 3 * 8 ^ n, a + 4 * 8 ^ n), (a + 4 * 8 ^ n, a + 5 * 8 ^ n),
           (a + 5 * 8 ^ n, a + 6 * 8 ^ n), (a + 6 * 8 ^ n, a + 7 * 8 ^ n),
           (a + 7 * 8 ^ n, a + 8 * 8 ^ n)] := by
        have hs : (a + 8 ^ (n + 1) - a) / 8 = 8 ^ n := by
          rw [Nat.add_sub_cancel_left, pow_succ, Nat.mul_div_cancel _ (by omega)]
        simp only [splitPass, splitLeaf, hs, List.append_nil]
        rw [if_pos ⟨hc, by omega⟩]
      rw [Function.iterate_succ_apply, hsplit, buildRec, if_neg (by omega)]
      have expand : ∀ p q : Nat × Nat, ∀ t : List (Nat × Nat),
          p :: q :: t = [p] ++ (q :: t) := fun _ _ _ => rfl
      have single : ∀ i : Nat,
          (splitPass keys bucketSize)^[n] [(a + i * 8 ^ n, a + (i + 1) * 8 ^ n)] =
            buildRec keys bucketSize (a + i * 8 ^ n) n := by
        intro i
        have e : a + (i + 1) * 8 ^ n = a + i * 8 ^ n + 8 ^ n := by ring
        rw [e, ih]
      rw [expand, splitPass_iterate_append, expand, splitPass_iterate_append,
        expand, splitPass_iterate_append, expand, splitPass_iterate_append,
        expand, splitPass_iterate_append, expand, splitPass_iterate_append,
        expand, splitPass_iterate_append]
      have s0 : (splitPass keys bucketSize)^[n] [(a, a + 8 ^ n)] =
          buildRec keys bucketSize a n := ih a
      have s1 := single 1
      have s2 := single 2
      have s3 := single 3
      have s4 := single 4
      have s5 := single 5
      have s6 := single 6
      have s7 := single 7
      norm_num at s1 s2 s3 s4 s5 s6 s7 ⊢
      rw [s0, s1, s2, s3, s4, s5, s6, s7]

/-! ### The builder iteration reaches a fixed point (spec sections 4.2, 8) -/

theorem nodeInv_root (keys : List Nat) (bucketSize maxLevel : Nat) :
    nodeInv keys bucketSize maxLevel (0, 8 ^ maxLevel) := by
  refine ⟨maxLevel, le_refl _, by omega, Dvd.intro 0 rfl, le_refl _, ?_⟩
  intro _ h
  omega

theorem splitLeaf_nodeInv {keys : List Nat} {bucketSize maxLevel : Nat} {r : Nat × Nat}
    (h : nodeInv keys bucketSize maxLevel r) :
    ∀ r' ∈ splitLeaf keys bucketSize r, nodeInv keys bucketSize maxLevel r' := by
  intro r' hr'
  obtain ⟨m, hmL, hend, hdvd, hcap, hcond⟩ := h
  rw [splitLeaf] at hr'
  split at hr'
  case isFalse =>
    rcases List.mem_singleton.mp hr' with rfl
    exact ⟨m, hmL, hend, hdvd, hcap, hcond⟩
  case isTrue hc =>
    obtain ⟨hcnt, hsize⟩ := hc
    obtain ⟨m', rfl⟩ : ∃ m', m = m' + 1 := by
      rcases m with - | m'
      · rw [pow_zero] at hend; omega
      · exact ⟨m', rfl⟩
    have hs : (r.2 - r.1) / 8 = 8 ^ m' := by
      have : r.2 - r.1 = 8 ^ (m' + 1) := by omega
      rw [this, pow_succ, Nat.mul_div_cancel _ (by omega)]
    rw [hs] at hr'
    have hppos : 0 < 8 ^ m' := Nat.pos_pow_of_pos _ (by omega)
    have hdvd' : 8 ^ (m' + 1) ∣ r.1 := hdvd
    have base : ∀ i : Nat, i < 8 →
        nodeInv keys bucketSize maxLevel (r.1 + i * 8 ^ m', r.1 + (i + 1) * 8 ^ m') := by
      intro i hi
      have hchild_dvd : 8 ^ m' ∣ r.1 + i * 8 ^ m' :=
        Nat.dvd_add (dvd_trans (pow_dvd_pow 8 (Nat.le_succ m')) hdvd') (dvd_mul_left _ i)
      have hchild_cap : r.1 + (i + 1) * 8 ^ m' ≤ 8 ^ maxLevel := by
        have h1 : (i + 1) * 8 ^ m' ≤ 8 * 8 ^ m' := Nat.mul_le_mul_right _ (by omega)
        have h2 : 8 * 8 ^ m' = 8 ^ (m' + 1) := by rw [pow_succ]; ring
        omega
      refine ⟨m', by omega, by ring, hchild_dvd, hchild_cap, ?_⟩
      intro halign _
      have hi0 : i = 0 := by
        obtain ⟨t, ht⟩ := hdvd'
        rw [ht, Nat.mul_comm (8 ^ (m' + 1)) t] at halign
        rw [Nat.mul_add_mod'] at halign
        have hlt : i * 8 ^ m' < 8 ^ (m' + 1) := by
          have : 8 ^ (m' + 1) = 8 * 8 ^ m' := by rw [pow_succ]; ring
          rw [this]
          exact (Nat.mul_lt_mul_right hppos).mpr hi
        rw [Nat.mod_eq_of_lt hlt] at halign
        rcases Nat.mul_eq_zero.mp halign with h0 | h0
        · exact h0
        · omega
      subst hi0
      have hgoal_end : r.1 + 0 * 8 ^ m' + 8 ^ (m' + 1) = r.2 := by omega
      rw [show r.1 + 0 * 8 ^ m' = r.1 by ring, show r.1 + 8 ^ (m' + 1) = r.2 by omega]
      exact hcnt
    simp only [List.mem_cons, List.not_mem_nil, or_false] at hr'
    rcases hr' with rfl | rfl | rfl | rfl | rfl | rfl | rfl | rfl
    · have := base 0 (by omega); rwa [show r.1 + 0 * 8 ^ m' = r.1 by ring,
        show (0 + 1) * 8 ^ m' = 8 ^ m' by ring] at this
    · have := base 1 (by omega); rwa [show r.1 + 1 * 8 ^ m' = r.1 + 8 ^ m' by ring,
        show (1 + 1) * 8 ^ m' = 2 * 8 ^ m' by ring] at this
    · have := base 2 (by omega); rwa [show (2 + 1) * 8 ^ m' = 3 * 8 ^ m' by ring] at this
    · have := base 3 (by omega); rwa [show (3 + 1) * 8 ^ m' = 4 * 8 ^ m' by ring] at this
    · have := base 4 (by omega); rwa [show (4 + 1) * 8 ^ m' = 5 * 8 ^ m' by ring] at this
    · have := base 5 (by omega); rwa [show (5 + 1) * 8 ^ m' = 6 * 8 ^ m' by ring] at this
    · have := base 6 (by omega); rwa [show (6 + 1) * 8 ^ m' = 7 * 8 ^ m' by ring] at this
    · have := base 7 (by omega); rwa [show (7 + 1) * 8 ^ m' = 8 * 8 ^ m' by ring] at this

theorem splitPass_nodeInv {keys : List Nat} {bucketSize maxLevel : Nat}
    {l : List (Nat × Nat)} (hinv : ∀ r ∈ l, nodeInv keys bucketSize maxLevel r) :
    ∀ r' ∈ splitPass keys bucketSize l, nodeInv keys bucketSize maxLevel r' := by
  induction l with
  | nil => intro r' hr'; cases hr'
  | cons r rest ih =>
    intro r' hr'
    rw [splitPass] at hr'
    rcases List.mem_append.mp hr' with hr' | hr'
    · exact splitLeaf_nodeInv (hinv r (List.mem_cons_self _ _)) r' hr'
    · exact ih (fun q hq => hinv q (List.mem_cons_of_mem _ hq)) r' hr'

theorem splitPass_iterate_nodeInv {keys : List Nat} {bucketSize maxLevel : Nat}
    (m : Nat) {l : List (Nat × Nat)} (hinv : ∀ r ∈ l, nodeInv keys bucketSize maxLevel r) :
    ∀ r' ∈ (splitPass keys bucketSize)^[m] l, nodeInv keys bucketSize maxLevel r' := by
  induction m generalizing l with
  | zero => exact hinv
  | succ m ih =>
    rw [Function.iterate_succ_apply]
    exact ih (splitPass_nodeInv hinv)

theorem fusePass_eq_self_fueled (keys : List Nat) (bucketSize maxLevel : Nat) :
    ∀ (n : Nat) (l : List (Nat × Nat)), l.length ≤ n →
      (∀ r ∈ l, nodeInv keys bucketSize maxLevel r) →
      fusePass keys bucketSize l = l := by
  intro n
  induction n with
  | zero =>
    intro l hl _
    rcases l with - | ⟨r, t⟩
    · rfl
    · simp at hl
  | succ n ih =>
    intro l hl hinv
    rcases l with - | ⟨r0, - | ⟨r1, - | ⟨r2, - | ⟨r3, - | ⟨r4, - | ⟨r5, - | ⟨r6, - | ⟨r7, rest⟩⟩⟩⟩⟩⟩⟩⟩
    · rfl
    · rfl
    · rfl
    · rfl
    · rfl
    · rfl
    · rfl
    · rfl
    · obtain ⟨m, hmL, hend, hdvd, hcap, hcond⟩ := hinv r0 (List.mem_cons_self _ _)
      have hppos : 0 < 8 ^ m := Nat.pos_pow_of_pos _ (by omega)
      have hLpos : 0 < 8 ^ maxLevel := Nat.pos_pow_of_pos _ (by omega)
      have hs : r0.2 - r0.1 = 8 ^ m := by omega
      have H : ¬(r0.1 % (8 * (r0.2 - r0.1)) = 0 ∧
          r1 = (r0.1 + (r0.2 - r0.1), r0.1 + 2 * (r0.2 - r0.1)) ∧
          r2 = (r0.1 + 2 * (r0.2 - r0.1), r0.1 + 3 * (r0.2 - r0.1)) ∧
          r3 = (r0.1 + 3 * (r0.2 - r0.1), r0.1 + 4 * (r0.2 - r0.1)) ∧
          r4 = (r0.1 + 4 * (r0.2 - r0.1), r0.1 + 5 * (r0.2 - r0.1)) ∧
          r5 = (r0.1 + 5 * (r0.2 - r0.1), r0.1 + 6 * (r0.2 - r0.1)) ∧
          r6 = (r0.1 + 6 * (r0.2 - r0.1), r0.1 + 7 * (r0.2 - r0.1)) ∧
          r7 = (r0.1 + 7 * (r0.2 - r0.1), r0.1 + 8 * (r0.2 - r0.1)) ∧
          countKeysInRange keys r0.1 (r0.1 + 8 * (r0.2 - r0.1)) < bucketSize / 8) := by
        rintro ⟨halign, h1, -, -, -, -, -, -, hcnt⟩
        have hcap1 : r1.2 ≤ 8 ^ maxLevel := by
          obtain ⟨m1, -, -, -, hc1, -⟩ :=
            hinv r1 (List.mem_cons_of_mem _ (List.mem_cons_self _ _))
          exact hc1
        have hr12 : r1.2 = r0.1 + 2 * (r0.2 - r0.1) := by rw [h1]
        have hmlt : m < maxLevel := by
          rcases Nat.lt_or_ge m maxLevel with hlt | hge
          · exact hlt
          · have hmeq : m = maxLevel := le_antisymm hmL hge
            subst hmeq
            omega
        have h8s : 8 * (r0.2 - r0.1) = 8 ^ (m + 1) := by
          rw [hs, pow_succ]; ring
        rw [h8s] at halign hcnt
        have hbig := hcond halign hmlt
        have := Nat.div_le_self bucketSize 8
        omega
      rw [fusePass, if_neg H]
      congr 1
      refine ih (r1 :: r2 :: r3 :: r4 :: r5 :: r6 :: r7 :: rest) (by simp at hl ⊢; omega) ?_
      intro q hq
      exact hinv q (List.mem_cons_of_mem _ hq)

theorem fusePass_eq_self {keys : List Nat} {bucketSize maxLevel : Nat}
    {l : List (Nat × Nat)} (hinv : ∀ r ∈ l, nodeInv keys bucketSize maxLevel r) :
    fusePass keys bucketSize l = l :=
  fusePass_eq_self_fueled keys bucketSize maxLevel l.length l (le_refl _) hinv

theorem splitPass_eq_self {keys : List Nat} {bucketSize : Nat} {l : List (Nat × Nat)}
    (h : ∀ r ∈ l, countKeysInRange keys r.1 r.2 ≤ bucketSize ∨ r.2 = r.1 + 1) :
    splitPass keys bucketSize l = l := by
  induction l with
  | nil => rfl
  | cons r rest ih =>
    rw [splitPass, splitLeaf]
    have hr := h r (List.mem_cons_self _ _)
    rw [if_neg (by omega)]
    rw [ih (fun q hq => h q (List.mem_cons_of_mem _ hq))]
    rfl

theorem rebalance_iterate_eq_split_iterate (keys : List Nat) (bucketSize maxLevel : Nat)
    (m : Nat) (l : List (Nat × Nat)) (hinv : ∀ r ∈ l, nodeInv keys bucketSize maxLevel r) :
    (rebalancePass keys bucketSize)^[m] l = (splitPass keys bucketSize)^[m] l := by
  induction m generalizing l with
  | zero => rfl
  | succ m ih =>
    rw [Function.iterate_succ_apply, Function.iterate_succ_apply]
    have hstep : rebalancePass keys bucketSize l = splitPass keys bucketSize l := by
      rw [rebalancePass]
      exact fusePass_eq_self (splitPass_nodeInv hinv)
    rw [hstep]
    exact ih _ (splitPass_nodeInv hinv)

theorem buildOctree_nodeInv (keys : List Nat) (bucketSize maxLevel : Nat) :
    ∀ r ∈ buildOctree keys bucketSize maxLevel, nodeInv keys bucketSize maxLevel r := by
  have hroot : ∀ r ∈ [((0 : Nat), 8 ^ maxLevel)], nodeInv keys bucketSize maxLevel r := by
    intro r hr
    rcases List.mem_singleton.mp hr with rfl
    exact nodeInv_root keys bucketSize maxLevel
  have h := splitPass_iterate_nodeInv maxLevel hroot
  have he := splitPass_iterate_buildRec keys bucketSize 0 maxLevel
  rw [Nat.zero_add] at he
  rw [he] at h
  exact h

/-- **C5.** The builder's split/fuse iteration, started on the single-root
tree, reaches after at most `maxLevel` rounds (the maximum tree depth fixed
by the key bit-width) the cornerstone octree, which is a fixed point: one
more split/fuse round changes nothing, i.e. no node still violates the
count bound.  All functions involved are total, so the iteration always
terminates, degenerate inputs included. -/
theorem builder_iteration_reaches_fixed_point (keys : List Nat) (bucketSize maxLevel : Nat) :
    (rebalancePass keys bucketSize)^[maxLevel] [(0, 8 ^ maxLevel)] =
      buildOctree keys bucketSize maxLevel ∧
    rebalancePass keys bucketSize (buildOctree keys bucketSize maxLevel) =
      buildOctree keys bucketSize maxLevel := by
  have hroot : ∀ r ∈ [((0 : Nat), 8 ^ maxLevel)], nodeInv keys bucketSize maxLevel r := by
    intro r hr
    rcases List.mem_singleton.mp hr with rfl
    exact nodeInv_root keys bucketSize maxLevel
  constructor
  · rw [rebalance_iterate_eq_split_iterate keys bucketSize maxLevel maxLevel _ hroot]
    have he := splitPass_iterate_buildRec keys bucketSize 0 maxLevel
    rw [Nat.zero_add] at he
    exact he
  · have hb : ∀ r ∈ buildOctree keys bucketSize maxLevel,
        countKeysInRange keys r.1 r.2 ≤ bucketSize ∨ r.2 = r.1 + 1 :=
      buildRec_leaf_bound keys bucketSize 0 maxLevel
    rw [rebalancePass, splitPass_eq_self hb]
    exact fusePass_eq_self (buildOctree_nodeInv keys bucketSize maxLevel)

/-! ### Load balancer properties (spec sections 4.3, 8) -/

theorem findCut_le_length (counts : List Nat) (t : Nat) :
    findCut counts t ≤ counts.length := by
  induction counts generalizing t with
  | nil => simp [findCut]
  | cons c rest ih =>
    rw [findCut]
    split
    · simp
    · split
      · simp
      · have := ih (t - c)
        simp only [List.length_cons]
        omega

theorem findCut_zero (counts : List Nat) : findCut counts 0 = 0 := by
  cases counts <;> simp [findCut]

theorem findCut_mono (counts : List Nat) {t t' : Nat} (h : t ≤ t') :
    findCut counts t ≤ findCut counts t' := by
  induction counts generalizing t t' with
  | nil => simp [findCut]
  | cons c rest ih =>
    rw [findCut, findCut]
    have hrec := ih (show t - c ≤ t' - c by omega)
    split_ifs <;> omega

theorem sumTo_zero (counts : List Nat) : sumTo counts 0 = 0 := rfl

theorem sumTo_length (counts : List Nat) : sumTo counts counts.length = counts.sum := by
  rw [sumTo, List.take_length]

theorem sumTo_cons_succ (c : Nat) (rest : List Nat) (i : Nat) :
    sumTo (c :: rest) (i + 1) = c + sumTo rest i := by
  rw [sumTo, sumTo, List.take_succ_cons, List.sum_cons]

theorem sumTo_mono (counts : List Nat) {i j : Nat} (h : i ≤ j) :
    sumTo counts i ≤ sumTo counts j := by
  induction counts generalizing i j with
  | nil => simp [sumTo]
  | cons c rest ih =>
    rcases i with - | i
    · rcases j with - | j
      · exact le_refl _
      · rw [sumTo_cons_succ]
        exact le_trans (Nat.zero_le _) (Nat.le_add_right _ _)
    · rcases j with - | j
      · omega
      · rw [sumTo_cons_succ, sumTo_cons_succ]
        exact Nat.add_le_add_left (ih (by omega)) c

theorem le_sumTo_findCut (counts : List Nat) {t : Nat} (h : t ≤ counts.sum) :
    t ≤ sumTo counts (findCut counts t) := by
  induction counts generalizing t with
  | nil => simp_all [findCut, sumTo]
  | cons c rest ih =>
    rw [findCut]
    rcases Nat.eq_zero_or_pos t with rfl | htpos
    · simp
    · rw [if_neg (by omega)]
      by_cases hc : t ≤ c
      · rw [if_pos hc, show (1 : Nat) = 0 + 1 by rfl, sumTo_cons_succ]
        omega
      · rw [if_neg hc, Nat.add_comm 1 (findCut rest (t - c)), sumTo_cons_succ]
        rw [List.sum_cons] at h
        have := ih (show t - c ≤ rest.sum by omega)
        omega

theorem sumTo_lt_of_lt_findCut (counts : List Nat) {t j : Nat}
    (hj : j < findCut counts t) : sumTo counts j < t := by
  induction counts generalizing t j with
  | nil => simp [findCut] at hj
  | cons c rest ih =>
    rw [findCut] at hj
    rcases Nat.eq_zero_or_pos t with rfl | htpos
    · simp at hj
    · rw [if_neg (by omega)] at hj
      by_cases hc : t ≤ c
      · rw [if_pos hc] at hj
        have : j = 0 := by omega
        subst this
        rw [sumTo_zero]
        omega
      · rw [if_neg hc] at hj
        rcases j with - | j
        · rw [sumTo_zero]; omega
        · rw [sumTo_cons_succ]
          have := ih (show j < findCut rest (t - c) by omega)
          omega

theorem getD_le_maxLeafCount (counts : List Nat) {j : Nat} (hj : j < counts.length) :
    counts.getD j 0 ≤ maxLeafCount counts := by
  induction counts generalizing j with
  | nil => simp at hj
  | cons c rest ih =>
    rcases j with - | j
    · exact le_max_left _ _
    · have := ih (show j < rest.length by simpa using hj)
      calc (c :: rest).getD (j + 1) 0 = rest.getD j 0 := rfl
        _ ≤ maxLeafCount rest := this
        _ ≤ maxLeafCount (c :: rest) := le_max_right _ _

theorem maxLeafCount_zero_sum (counts : List Nat) (h : maxLeafCount counts = 0) :
    counts.sum = 0 := by
  induction counts with
  | nil => rfl
  | cons c rest ih =>
    rw [maxLeafCount, List.foldr_cons] at h
    rcases Nat.max_eq_zero_iff.mp h with ⟨h1, h2⟩
    rw [List.sum_cons, h1, ih h2]

theorem sumTo_succ (counts : List Nat) {j : Nat} (hj : j < counts.length) :
    sumTo counts (j + 1) = sumTo counts j + counts.getD j 0 := by
  induction counts generalizing j with
  | nil => simp at hj
  | cons c rest ih =>
    rcases j with - | j
    · have h0 : (c :: rest).getD 0 0 = c := rfl
      have h1 : sumTo (c :: rest) 0 = 0 := rfl
      rw [sumTo_cons_succ, sumTo_zero, h0, h1]
      omega
    · have h0 : (c :: rest).getD (j + 1) 0 = rest.getD j 0 := rfl
      rw [sumTo_cons_succ, sumTo_cons_succ, ih (by simpa using hj), h0]
      omega

theorem sumTo_findCut_upper (counts : List Nat) (t : Nat) :
    sumTo counts (findCut counts t) ≤ t ∨
    sumTo counts (findCut counts t) < t + maxLeafCount counts := by
  rcases hf : findCut counts t with - | j
  · left; rw [sumTo_zero]; omega
  · right
    have hjlen : j < counts.length := by
      have := findCut_le_length counts t
      omega
    have hsucc : sumTo counts (j + 1) = sumTo counts j + counts.getD j 0 :=
      sumTo_succ counts hjlen
    have h1 : sumTo counts j < t := sumTo_lt_of_lt_findCut counts (by omega)
    have h2 : counts.getD j 0 ≤ maxLeafCount counts := getD_le_maxLeafCount counts hjlen
    omega

theorem target_div_step (total numRanks r : Nat) (hN : 0 < numRanks) :
    r * total / numRanks + total / numRanks ≤ (r + 1) * total / numRanks ∧
    (r + 1) * total / numRanks ≤ r * total / numRanks + total / numRanks + 1 := by
  set q := total / numRanks with hq
  set s := total % numRanks with hs
  have htot : numRanks * q + s = total := Nat.div_add_mod total numRanks
  have hslt : s < numRanks := Nat.mod_lt _ hN
  have e1 : r * total / numRanks = r * q + r * s / numRanks := by
    rw [show r * total = numRanks * (r * q) + r * s by rw [← htot]; ring]
    rw [Nat.mul_add_div hN]
  have e2 : (r + 1) * total / numRanks = (r + 1) * q + (r * s + s) / numRanks := by
    rw [show (r + 1) * total = numRanks * ((r + 1) * q) + (r * s + s) by rw [← htot]; ring]
    rw [Nat.mul_add_div hN]
  have e3 : (r + 1) * q = r * q + q := by ring
  have h1 : r * s / numRanks ≤ (r * s + s) / numRanks :=
    Nat.div_le_div_right (Nat.le_add_right _ _)
  have h2 : (r * s + s) / numRanks ≤ r * s / numRanks + 1 := by
    calc (r * s + s) / numRanks ≤ (r * s + numRanks) / numRanks :=
          Nat.div_le_div_right (by omega)
      _ = r * s / numRanks + 1 := Nat.add_div_right _ hN
  omega

theorem rankCut_le_length (counts : List Nat) (numRanks r : Nat) :
    rankCut counts numRanks r ≤ counts.length := by
  rw [rankCut]
  split
  · exact le_refl _
  · exact findCut_le_length _ _

theorem rankCut_zero (counts : List Nat) {numRanks : Nat} (hN : 0 < numRanks) :
    rankCut counts numRanks 0 = 0 := by
  rw [rankCut, if_neg (by omega), Nat.zero_mul, Nat.zero_div, findCut_zero]

theorem rankCut_last (counts : List Nat) (numRanks : Nat) :
    rankCut counts numRanks numRanks = counts.length := by
  rw [rankCut, if_pos (le_refl _)]

theorem rankCut_mono (counts : List Nat) (numRanks : Nat) {r r' : Nat} (h : r ≤ r') :
    rankCut counts numRanks r ≤ rankCut counts numRanks r' := by
  rw [rankCut, rankCut]
  split
  · rw [if_pos (by omega)]
  · split
    · exact findCut_le_length _ _
    · exact findCut_mono _ (Nat.div_le_div_right (Nat.mul_le_mul_right _ h))

theorem sumTo_rankCut_ge (counts : List Nat) {numRanks r : Nat} (hN : 0 < numRanks)
    (hr : r ≤ numRanks) :
    r * counts.sum / numRanks ≤ sumTo counts (rankCut counts numRanks r) := by
  rw [rankCut]
  split
  · have hreq : r = numRanks := by omega
    subst hreq
    rw [sumTo_length, Nat.mul_div_cancel_left _ hN]
  · refine le_sumTo_findCut counts ?_
    calc r * counts.sum / numRanks ≤ numRanks * counts.sum / numRanks :=
          Nat.div_le_div_right (Nat.mul_le_mul_right _ hr)
      _ = counts.sum := Nat.mul_div_cancel_left _ hN

theorem sumTo_rankCut_le (counts : List Nat) {numRanks r : Nat} (hN : 0 < numRanks) :
    sumTo counts (rankCut counts numRanks r) ≤ r * counts.sum / numRanks ∨
    sumTo counts (rankCut counts numRanks r) <
      r * counts.sum / numRanks + maxLeafCount counts := by
  rw [rankCut]
  split
  · left
    rw [sumTo_length]
    have : numRanks * counts.sum / numRanks = counts.sum := Nat.mul_div_cancel_left _ hN
    calc counts.sum = numRanks * counts.sum / numRanks := this.symm
      _ ≤ r * counts.sum / numRanks := Nat.div_le_div_right (Nat.mul_le_mul_right _ (by omega))
  · exact sumTo_findCut_upper _ _

theorem rankLoad_balanced (counts : List Nat) {numRanks : Nat} (hN : 0 < numRanks)
    {r : Nat} (hr : r < numRanks) :
    rankLoad counts numRanks r ≤ counts.sum / numRanks + maxLeafCount counts ∧
    counts.sum / numRanks ≤ rankLoad counts numRanks r + maxLeafCount counts := by
  have hT0 := sumTo_rankCut_ge counts hN (show r ≤ numRanks by omega)
  have hT1 := sumTo_rankCut_ge counts hN (show r + 1 ≤ numRanks by omega)
  have hU0 := sumTo_rankCut_le counts hN (r := r)
  have hU1 := sumTo_rankCut_le counts hN (r := r + 1)
  have hmono : sumTo counts (rankCut counts numRanks r) ≤
      sumTo counts (rankCut counts numRanks (r + 1)) :=
    sumTo_mono counts (rankCut_mono counts numRanks (by omega))
  have hcap : sumTo counts (rankCut counts numRanks (r + 1)) ≤ counts.sum := by
    calc sumTo counts (rankCut counts numRanks (r + 1)) ≤
          sumTo counts counts.length :=
        sumTo_mono counts (rankCut_le_length _ _ _)
      _ = counts.sum := sumTo_length counts
  have hstep := target_div_step counts.sum numRanks r hN
  rw [rankLoad]
  rcases Nat.eq_zero_or_pos (maxLeafCount counts) with hM | hM
  · have hz := maxLeafCount_zero_sum counts hM
    have hS1 : sumTo counts (rankCut counts numRanks (r + 1)) = 0 := by omega
    have hq : counts.sum / numRanks = 0 := by rw [hz]; exact Nat.zero_div _
    omega
  · rcases hU0 with hU0 | hU0 <;> rcases hU1 with hU1 | hU1 <;> omega

theorem assignmentRanges_getD (tree counts : List Nat) (numRanks : Nat) {r : Nat}
    (hr : r < numRanks) :
    (assignmentRanges tree counts numRanks).getD r (0, 0) =
      (tree.getD (rankCut counts numRanks r) 0,
       tree.getD (rankCut counts numRanks (r + 1)) 0) := by
  rw [assignmentRanges, List.getD_eq_getD_get?, List.get?_map, List.get?_range hr]
  rfl

theorem sorted_getD_mono {tree : List Nat} (hsort : List.Sorted (· ≤ ·) tree)
    {i j : Nat} (hij : i ≤ j) (hj : j < tree.length) :
    tree.getD i 0 ≤ tree.getD j 0 := by
  have hi : i < tree.length := by omega
  rw [List.getD_eq_getElem tree 0 hi, List.getD_eq_getElem tree 0 hj]
  exact hsort.rel_get_of_le (Fin.mk_le_mk.mpr hij)

theorem getD_mem {tree : List Nat} {i : Nat} (hi : i < tree.length) :
    tree.getD i 0 ∈ tree := by
  rw [List.getD_eq_getElem tree 0 hi]
  exact List.getElem_mem hi

/-- **C2.** For every global cornerstone octree (leaf-boundary key array
`tree`, sorted, with per-leaf counts `counts`) and every positive rank
count, the load balancer returns `numRanks` key ranges that are contiguous
(each range starts where the previous ends), ordered by key and
non-overlapping (each range's start is at most its end), leaf-aligned
(every range boundary is a leaf boundary of the tree), cover the whole key
space exactly once (the first range starts at the first tree key, the last
range ends at the last tree key), and each rank's particle count differs
from `totalCount / numRanks` by at most the particle count of one single
leaf. -/
theorem load_balancer_assignment (tree counts : List Nat) (numRanks : Nat)
    (hN : 0 < numRanks) (hlen : tree.length = counts.length + 1)
    (hsort : List.Sorted (· ≤ ·) tree) :
    (assignmentRanges tree counts numRanks).length = numRanks ∧
    (∀ r, r + 1 < numRanks →
      ((assignmentRanges tree counts numRanks).getD (r + 1) (0, 0)).1 =
        ((assignmentRanges tree counts numRanks).getD r (0, 0)).2) ∧
    (∀ r, r < numRanks →
      ((assignmentRanges tree counts numRanks).getD r (0, 0)).1 ≤
        ((assignmentRanges tree counts numRanks).getD r (0, 0)).2) ∧
    ((assignmentRanges tree counts numRanks).getD 0 (0, 0)).1 = tree.getD 0 0 ∧
    ((assignmentRanges tree counts numRanks).getD (numRanks - 1) (0, 0)).2 =
      tree.getD counts.length 0 ∧
    (∀ r, r < numRanks →
      ((assignmentRanges tree counts numRanks).getD r (0, 0)).1 ∈ tree ∧
      ((assignmentRanges tree counts numRanks).getD r (0, 0)).2 ∈ tree) ∧
    (∀ r, r < numRanks →
      rankLoad counts numRanks r ≤ counts.sum / numRanks + maxLeafCount counts ∧
      counts.sum / numRanks ≤ rankLoad counts numRanks r + maxLeafCount counts) := by
  have hcutlen : ∀ r, rankCut counts numRanks r < tree.length := by
    intro r
    have := rankCut_le_length counts numRanks r
    omega
  refine ⟨?_, ?_, ?_, ?_, ?_, ?_, ?_⟩
  · rw [assignmentRanges, List.length_map, List.length_range]
  · intro r hr
    rw [assignmentRanges_getD tree counts numRanks (by omega),
      assignmentRanges_getD tree counts numRanks (by omega)]
  · intro r hr
    rw [assignmentRanges_getD tree counts numRanks hr]
    exact sorted_getD_mono hsort (rankCut_mono counts numRanks (by omega)) (hcutlen _)
  · rw [assignmentRanges_getD tree counts numRanks hN, rankCut_zero counts hN]
  · rw [assignmentRanges_getD tree counts numRanks (by omega),
      show numRanks - 1 + 1 = numRanks by omega, rankCut_last]
  · intro r hr
    rw [assignmentRanges_getD tree counts numRanks hr]
    exact ⟨getD_mem (hcutlen _), getD_mem (hcutlen _)⟩
  · intro r hr
    exact rankLoad_balanced counts hN hr

/-- Witness for C2: two ranks over a four-leaf tree with counts
`[3, 1, 4, 1]` and leaf boundaries `[0, 2, 4, 6, 8]`: rank 0's load is
within one leaf count of the mean. -/
theorem load_balancer_assignment_witness :
    (0 : Nat) < 2 ∧
    ([0, 2, 4, 6, 8] : List Nat).length = ([3, 1, 4, 1] : List Nat).length + 1 ∧
    List.Sorted (· ≤ ·) ([0, 2, 4, 6, 8] : List Nat) ∧
    (rankLoad [3, 1, 4, 1] 2 0 ≤
        ([3, 1, 4, 1] : List Nat).sum / 2 + maxLeafCount [3, 1, 4, 1] ∧
      ([3, 1, 4, 1] : List Nat).sum / 2 ≤
        rankLoad [3, 1, 4, 1] 2 0 + maxLeafCount [3, 1, 4, 1]) :=
  ⟨by decide, by decide, by decide,
    (load_balancer_assignment [0, 2, 4, 6, 8] [3, 1, 4, 1] 2 (by decide) (by decide)
      (by decide)).2.2.2.2.2.2 0 (by decide)⟩

/-! ### Idempotence of the decomposition (spec sections 8, 9) -/

theorem rebalance_fixed_on_buildOctree (keys : List Nat) (bucketSize maxLevel : Nat) :
    rebalancePass keys bucketSize (buildOctree keys bucketSize maxLevel) =
      buildOctree keys bucketSize maxLevel := by
  have hb : ∀ r ∈ buildOctree keys bucketSize maxLevel,
      countKeysInRange keys r.1 r.2 ≤ bucketSize ∨ r.2 = r.1 + 1 :=
    buildRec_leaf_bound keys bucketSize 0 maxLevel
  rw [rebalancePass, splitPass_eq_self hb]
  exact fusePass_eq_self (buildOctree_nodeInv keys bucketSize maxLevel)

/-- **C7.** Idempotence of the decomposition: re-running the domain
decomposition (warm-started from the previous round's tree, as the spec
allows) on a particle set that has not moved produces exactly the same
cornerstone tree and rank assignment as the first round, and the
particle-migration set relative to the owners established by the first
round is empty: no particle changes owner. -/
theorem decomposition_idempotent (keys : List Nat) (bucketSize maxLevel numRanks : Nat) :
    decomposeDomain keys bucketSize maxLevel numRanks
        (some (decomposeDomain keys bucketSize maxLevel numRanks none).1) =
      decomposeDomain keys bucketSize maxLevel numRanks none ∧
    migrationSet
      (fun k => ownerRank (decomposeDomain keys bucketSize maxLevel numRanks none).2 k)
      keys
      (decomposeDomain keys bucketSize maxLevel numRanks
        (some (decomposeDomain keys bucketSize maxLevel numRanks none).1)).2 = [] := by
  have hfirst : (decomposeDomain keys bucketSize maxLevel numRanks none).1 =
      buildOctree keys bucketSize maxLevel := rfl
  have hiter : (rebalancePass keys bucketSize)^[maxLevel]
      (buildOctree keys bucketSize maxLevel) = buildOctree keys bucketSize maxLevel :=
    Function.iterate_fixed (rebalance_fixed_on_buildOctree keys bucketSize maxLevel) maxLevel
  have hsame : decomposeDomain keys bucketSize maxLevel numRanks
      (some (decomposeDomain keys bucketSize maxLevel numRanks none).1) =
      decomposeDomain keys bucketSize maxLevel numRanks none := by
    rw [hfirst]
    rw [decomposeDomain, decomposeDomain]
    simp only [hiter]
  refine ⟨hsame, ?_⟩
  rw [hsame]
  rw [migrationSet, List.filter_eq_nil]
  intro k _
  simp

/-! ### SFC codec properties (spec sections 4.1, 8) -/

theorem gridIndex_lt (lo hi x : ℚ) (b : Nat) : gridIndex lo hi x b < 2 ^ b := by
  have h1 : gridIndex lo hi x b ≤ 2 ^ b - 1 := min_le_right _ _
  have h2 : (0 : Nat) < 2 ^ b := Nat.pos_pow_of_pos _ (by omega)
  omega

theorem deinterleave3_interleave3 (b : Nat) :
    ∀ ix iy iz : Nat, ix < 2 ^ b → iy < 2 ^ b → iz < 2 ^ b →
      deinterleave3 b (interleave3 b ix iy iz) = (ix, iy, iz) := by
  induction b with
  | zero =>
    intro ix iy iz hx hy hz
    interval_cases ix
    interval_cases iy
    interval_cases iz
    rfl
  | succ b ih =>
    intro ix iy iz hx hy hz
    have hp : (2 : Nat) ^ (b + 1) = 2 * 2 ^ b := by rw [pow_succ]; ring
    have ihv := ih (ix / 2) (iy / 2) (iz / 2) (by omega) (by omega) (by omega)
    rw [interleave3, deinterleave3]
    have hdiv : (ix % 2 * 4 + iy % 2 * 2 + iz % 2 +
        8 * interleave3 b (ix / 2) (iy / 2) (iz / 2)) / 8 =
        interleave3 b (ix / 2) (iy / 2) (iz / 2) := by omega
    rw [hdiv, ihv]
    simp only [Prod.mk.injEq]
    refine ⟨by omega, by omega, by omega⟩

theorem encodeKey_eq_iff_gridIndex_eq (b : Nat) (box : SimBox) (p q : Pt3) :
    encodeKey b box p = encodeKey b box q ↔
      (gridIndex box.xmin box.xmax p.px b = gridIndex box.xmin box.xmax q.px b ∧
       gridIndex box.ymin box.ymax p.py b = gridIndex box.ymin box.ymax q.py b ∧
       gridIndex box.zmin box.zmax p.pz b = gridIndex box.zmin box.zmax q.pz b) := by
  constructor
  · intro h
    have hp := deinterleave3_interleave3 b
      (gridIndex box.xmin box.xmax p.px b) (gridIndex box.ymin box.ymax p.py b)
      (gridIndex box.zmin box.zmax p.pz b)
      (gridIndex_lt _ _ _ _) (gridIndex_lt _ _ _ _) (gridIndex_lt _ _ _ _)
    have hq := deinterleave3_interleave3 b
      (gridIndex box.xmin box.xmax q.px b) (gridIndex box.ymin box.ymax q.py b)
      (gridIndex box.zmin box.zmax q.pz b)
      (gridIndex_lt _ _ _ _) (gridIndex_lt _ _ _ _) (gridIndex_lt _ _ _ _)
    rw [encodeKey, encodeKey] at h
    rw [h] at hp
    rw [hp] at hq
    exact ⟨congrArg (fun t => t.1) hq, congrArg (fun t => t.2.1) hq,
      congrArg (fun t => t.2.2) hq⟩
  · rintro ⟨h1, h2, h3⟩
    rw [encodeKey, encodeKey, h1, h2, h3]


theorem gridIndex_bounds (lo hi x : ℚ) (b : Nat) (hlohi : lo < hi)
    (hx1 : lo ≤ x) (hx2 : x < hi) :
    ((gridIndex lo hi x b : ℚ)) * (hi - lo) ≤ (x - lo) * 2 ^ b ∧
    (x - lo) * 2 ^ b < ((gridIndex lo hi x b : ℚ) + 1) * (hi - lo) := by
  have hL : (0 : ℚ) < hi - lo := by linarith
  have hP : (0 : ℚ) < (2 : ℚ) ^ b := by positivity
  set t : ℚ := (x - lo) * (2 ^ b : ℚ) / (hi - lo) with ht
  have ht0 : 0 ≤ t := by
    apply div_nonneg _ (le_of_lt hL)
    have hx0 : (0 : ℚ) ≤ x - lo := by linarith
    positivity
  have htlt : t < 2 ^ b := by
    rw [ht, div_lt_iff hL]
    have hxl : (x - lo) < hi - lo := by linarith
    calc (x - lo) * 2 ^ b < (hi - lo) * 2 ^ b := mul_lt_mul_of_pos_right hxl hP
      _ = 2 ^ b * (hi - lo) := by ring
  have hfl0 : 0 ≤ ⌊t⌋ := Int.le_floor.mpr (by exact_mod_cast ht0)
  have hflt : ⌊t⌋ < (2 : ℤ) ^ b := by
    rw [Int.floor_lt]
    have hcast : (((2 : ℤ) ^ b : ℤ) : ℚ) = (2 : ℚ) ^ b := by push_cast; ring
    rw [hcast]
    exact htlt
  have htoNat_lt : Int.toNat ⌊t⌋ < 2 ^ b := by
    have h1 : ((Int.toNat ⌊t⌋ : ℤ)) = ⌊t⌋ := Int.toNat_of_nonneg hfl0
    have h2 : ((2 : ℤ) ^ b) = ((2 ^ b : Nat) : ℤ) := by push_cast; ring
    omega
  have hgi : gridIndex lo hi x b = Int.toNat ⌊t⌋ := by
    rw [gridIndex, ← ht]
    exact min_eq_left (by omega)
  have hgcast : ((gridIndex lo hi x b : ℚ)) = ((⌊t⌋ : ℤ) : ℚ) := by
    rw [hgi]
    exact_mod_cast congrArg (fun z : ℤ => (z : ℚ)) (Int.toNat_of_nonneg hfl0)
  have hle : ((gridIndex lo hi x b : ℚ)) ≤ t := by
    rw [hgcast]
    exact Int.floor_le t
  have hlt : t < ((gridIndex lo hi x b : ℚ)) + 1 := by
    rw [hgcast]
    exact Int.lt_floor_add_one t
  constructor
  · rw [ht] at hle
    have := (le_div_iff hL).mp hle
    linarith
  · rw [ht] at hlt
    have := (div_lt_iff hL).mp hlt
    linarith

theorem cell_contains (lo hi x : ℚ) (b : Nat) (hlohi : lo < hi)
    (hx1 : lo ≤ x) (hx2 : x < hi) :
    (cellCenterSize lo hi b (gridIndex lo hi x b)).1 -
        (cellCenterSize lo hi b (gridIndex lo hi x b)).2 / 2 ≤ x ∧
    x < (cellCenterSize lo hi b (gridIndex lo hi x b)).1 +
        (cellCenterSize lo hi b (gridIndex lo hi x b)).2 / 2 := by
  obtain ⟨h1, h2⟩ := gridIndex_bounds lo hi x b hlohi hx1 hx2
  have hL : (0 : ℚ) < hi - lo := by linarith
  have hP : (0 : ℚ) < (2 : ℚ) ^ b := by positivity
  have hA : (gridIndex lo hi x b : ℚ) * (hi - lo) / 2 ^ b ≤ x - lo :=
    (div_le_iff hP).mpr (by linarith)
  have hB : x - lo < ((gridIndex lo hi x b : ℚ) + 1) * (hi - lo) / 2 ^ b :=
    (lt_div_iff hP).mpr (by linarith)
  simp only [cellCenterSize]
  constructor
  · have e : lo + ((gridIndex lo hi x b : ℚ) + 1 / 2) * (hi - lo) / 2 ^ b -
        (hi - lo) / 2 ^ b / 2 =
        lo + (gridIndex lo hi x b : ℚ) * (hi - lo) / 2 ^ b := by ring
    rw [e]
    linarith
  · have e : lo + ((gridIndex lo hi x b : ℚ) + 1 / 2) * (hi - lo) / 2 ^ b +
        (hi - lo) / 2 ^ b / 2 =
        lo + ((gridIndex lo hi x b : ℚ) + 1) * (hi - lo) / 2 ^ b := by ring
    rw [e]
    linarith

theorem wrapCoord_add_period (lo hi x : ℚ) (h : lo < hi) :
    wrapCoord lo hi (x + (hi - lo)) = wrapCoord lo hi x := by
  have hL : hi - lo ≠ 0 := ne_of_gt (by linarith)
  have e : (x + (hi - lo) - lo) / (hi - lo) = (x - lo) / (hi - lo) + 1 := by
    field_simp
    ring
  rw [wrapCoord, wrapCoord, e, Int.floor_add_one]
  push_cast
  ring

/-- **C3.** SFC codec contract: for every point inside the box,
`decode(encode(p, box))` is the cell — center and size per axis at the
encoding resolution — containing `p`; encoding is deterministic and
injective at the `b`-bit resolution (two points encode to the same key
exactly when they fall in the same grid cell on all three axes); and on a
periodic axis, a coordinate and the coordinate shifted by one full box
period wrap to the same value, so wrap-around at one boundary and at the
opposite boundary encode to the same key. -/
theorem sfc_codec_roundtrip_injective_periodic (b : Nat) (box : SimBox) (p : Pt3)
    (hx : box.xmin < box.xmax) (hy : box.ymin < box.ymax) (hz : box.zmin < box.zmax)
    (hpx1 : box.xmin ≤ p.px) (hpx2 : p.px < box.xmax)
    (hpy1 : box.ymin ≤ p.py) (hpy2 : p.py < box.ymax)
    (hpz1 : box.zmin ≤ p.pz) (hpz2 : p.pz < box.zmax) :
    ((decodeKey b box (encodeKey b box p)).1.1 -
        (decodeKey b box (encodeKey b box p)).1.2 / 2 ≤ p.px ∧
      p.px < (decodeKey b box (encodeKey b box p)).1.1 +
        (decodeKey b box (encodeKey b box p)).1.2 / 2) ∧
    ((decodeKey b box (encodeKey b box p)).2.1.1 -
        (decodeKey b box (encodeKey b box p)).2.1.2 / 2 ≤ p.py ∧
      p.py < (decodeKey b box (encodeKey b box p)).2.1.1 +
        (decodeKey b box (encodeKey b box p)).2.1.2 / 2) ∧
    ((decodeKey b box (encodeKey b box p)).2.2.1 -
        (decodeKey b box (encodeKey b box p)).2.2.2 / 2 ≤ p.pz ∧
      p.pz < (decodeKey b box (encodeKey b box p)).2.2.1 +
        (decodeKey b box (encodeKey b box p)).2.2.2 / 2) ∧
    (∀ q : Pt3, encodeKey b box p = encodeKey b box q ↔
      (gridIndex box.xmin box.xmax p.px b = gridIndex box.xmin box.xmax q.px b ∧
       gridIndex box.ymin box.ymax p.py b = gridIndex box.ymin box.ymax q.py b ∧
       gridIndex box.zmin box.zmax p.pz b = gridIndex box.zmin box.zmax q.pz b)) ∧
    ((box.bkx = BoundaryKind.periodicKind →
        encodeKeyWrapped b box ⟨p.px + (box.xmax - box.xmin), p.py, p.pz⟩ =
          encodeKeyWrapped b box p) ∧
     (box.bky = BoundaryKind.periodicKind →
        encodeKeyWrapped b box ⟨p.px, p.py + (box.ymax - box.ymin), p.pz⟩ =
          encodeKeyWrapped b box p) ∧
     (box.bkz = BoundaryKind.periodicKind →
        encodeKeyWrapped b box ⟨p.px, p.py, p.pz + (box.zmax - box.zmin)⟩ =
          encodeKeyWrapped b box p)) := by
  have hdi := deinterleave3_interleave3 b
    (gridIndex box.xmin box.xmax p.px b) (gridIndex box.ymin box.ymax p.py b)
    (gridIndex box.zmin box.zmax p.pz b)
    (gridIndex_lt _ _ _ _) (gridIndex_lt _ _ _ _) (gridIndex_lt _ _ _ _)
  have hdec : decodeKey b box (encodeKey b box p) =
      (cellCenterSize box.xmin box.xmax b (gridIndex box.xmin box.xmax p.px b),
       cellCenterSize box.ymin box.ymax b (gridIndex box.ymin box.ymax p.py b),
       cellCenterSize box.zmin box.zmax b (gridIndex box.zmin box.zmax p.pz b)) := by
    rw [decodeKey, encodeKey, hdi]
  rw [hdec]
  refine ⟨cell_contains box.xmin box.xmax p.px b hx hpx1 hpx2,
    cell_contains box.ymin box.ymax p.py b hy hpy1 hpy2,
    cell_contains box.zmin box.zmax p.pz b hz hpz1 hpz2,
    fun q => encodeKey_eq_iff_gridIndex_eq b box p q, ?_, ?_, ?_⟩
  · intro hbk
    simp only [encodeKeyWrapped, wrapAxis, hbk]
    rw [wrapCoord_add_period _ _ _ hx]
  · intro hbk
    simp only [encodeKeyWrapped, wrapAxis, hbk]
    rw [wrapCoord_add_period _ _ _ hy]
  · intro hbk
    simp only [encodeKeyWrapped, wrapAxis, hbk]
    rw [wrapCoord_add_period _ _ _ hz]

/-- Witness for C3: the codec contract applied at one bit per axis to the
concrete periodic box and the origin point inside it. -/
theorem sfc_codec_roundtrip_injective_periodic_witness :
    (codecBox.xmin < codecBox.xmax ∧ codecBox.xmin ≤ codecPt.px ∧
      codecPt.px < codecBox.xmax) ∧
    ((decodeKey 1 codecBox (encodeKey 1 codecBox codecPt)).1.1 -
        (decodeKey 1 codecBox (encodeKey 1 codecBox codecPt)).1.2 / 2 ≤ codecPt.px ∧
      codecPt.px < (decodeKey 1 codecBox (encodeKey 1 codecBox codecPt)).1.1 +
        (decodeKey 1 codecBox (encodeKey 1 codecBox codecPt)).1.2 / 2) :=
  ⟨⟨zero_lt_one, le_refl 0, zero_lt_one⟩,
    (sfc_codec_roundtrip_injective_periodic 1 codecBox codecPt zero_lt_one zero_lt_one
      zero_lt_one (le_refl 0) zero_lt_one (le_refl 0) zero_lt_one (le_refl 0)
      zero_lt_one).1⟩

/-! ### Halo completeness (spec sections 4.4, 8) -/

theorem abs_bound_of_sq_le_sq {a r : ℚ} (h : a ^ 2 ≤ r ^ 2) (hr : 0 ≤ r) :
    -r ≤ a ∧ a ≤ r := by
  constructor <;> nlinarith

/-- **C6.** Halo completeness: for every local particle `p` (inside the
local assignment's bounding box, in particular any particle within the
interaction radius of its boundary), every other particle `q` anywhere in
the global set that lies within the interaction radius of `p` — on
periodic axes of the global box, through any wrapped image of `q`, which
for in-box points covers the minimum-image periodic distance — is either
owned locally or its containing leaf cell is in the halo set that halo
discovery computes for the local rank against the peer owning `q`: no
true interaction neighbor is missed, periodic wrap-around included. -/
theorem halo_discovery_complete (gbox : SimBox) (myRank : Nat) (localBox : AABB)
    (maxRadius radius : ℚ) (cells : List (Nat × AABB)) (p q : Pt3)
    (qRank : Nat) (qCell : AABB) (sx sy sz : ℚ)
    (hrad0 : 0 ≤ radius) (hradmax : radius ≤ maxRadius)
    (hp : inAABB localBox p)
    (hqcell : (qRank, qCell) ∈ cells) (hq : inAABB qCell q)
    (hsx : sx ∈ axisShifts gbox.bkx gbox.xmin gbox.xmax)
    (hsy : sy ∈ axisShifts gbox.bky gbox.ymin gbox.ymax)
    (hsz : sz ∈ axisShifts gbox.bkz gbox.zmin gbox.zmax)
    (hnear : dist2 p (shiftPt q sx sy sz) ≤ radius ^ 2) :
    qRank = myRank ∨
      (qRank, qCell) ∈ haloCells gbox myRank localBox maxRadius cells := by
  by_cases hr : qRank = myRank
  · exact Or.inl hr
  · right
    rw [haloCells, List.mem_filter]
    refine ⟨hqcell, ?_⟩
    rw [dist2, shiftPt] at hnear
    dsimp only at hnear
    obtain ⟨hp1, hp2, hp3, hp4, hp5, hp6⟩ := hp
    obtain ⟨hq1, hq2, hq3, hq4, hq5, hq6⟩ := hq
    have hxx : (p.px - (q.px + sx)) ^ 2 ≤ radius ^ 2 := by
      nlinarith [sq_nonneg (p.py - (q.py + sy)), sq_nonneg (p.pz - (q.pz + sz))]
    have hyy : (p.py - (q.py + sy)) ^ 2 ≤ radius ^ 2 := by
      nlinarith [sq_nonneg (p.px - (q.px + sx)), sq_nonneg (p.pz - (q.pz + sz))]
    have hzz : (p.pz - (q.pz + sz)) ^ 2 ≤ radius ^ 2 := by
      nlinarith [sq_nonneg (p.px - (q.px + sx)), sq_nonneg (p.py - (q.py + sy))]
    obtain ⟨hxl, hxr⟩ := abs_bound_of_sq_le_sq hxx hrad0
    obtain ⟨hyl, hyr⟩ := abs_bound_of_sq_le_sq hyy hrad0
    obtain ⟨hzl, hzr⟩ := abs_bound_of_sq_le_sq hzz hrad0
    have hxa : localBox.axmin - maxRadius ≤ qCell.axmax + sx := by linarith
    have hxb : qCell.axmin + sx ≤ localBox.axmax + maxRadius := by linarith
    have hya : localBox.aymin - maxRadius ≤ qCell.aymax + sy := by linarith
    have hyb : qCell.aymin + sy ≤ localBox.aymax + maxRadius := by linarith
    have hza : localBox.azmin - maxRadius ≤ qCell.azmax + sz := by linarith
    have hzb : qCell.azmin + sz ≤ localBox.azmax + maxRadius := by linarith
    clear hxx hyy hzz hnear
    have hov : overlaps (expandAABB localBox maxRadius)
        (shiftAABB qCell sx sy sz) = true := by
      rw [overlaps]
      simp only [shiftAABB, expandAABB, Bool.and_eq_true, decide_eq_true_eq]
      exact ⟨⟨⟨⟨⟨hxa, hxb⟩, hya⟩, hyb⟩, hza⟩, hzb⟩
    have himg : overlapsWithImages gbox (expandAABB localBox maxRadius) qCell = true := by
      rw [overlapsWithImages]
      simp only [List.any_eq_true]
      exact ⟨sx, hsx, sy, hsy, sz, hsz, hov⟩
    rw [Bool.and_eq_true]
    exact ⟨decide_eq_true hr, himg⟩

/-- Witness for C6 with a genuinely periodic neighbor: in the fully
periodic box `[0,4]^3`, rank 0 owns the low-x slab and rank 1 the high-x
slab; the particle at `x = 4` is within radius 1 of the particle at
`x = 0` through the wrapped image shifted by one x period, and rank 1's
cell is found in rank 0's halo set. -/
theorem halo_discovery_complete_witness :
    ((0 : ℚ) ≤ 1 ∧ (1 : ℚ) ≤ 1 ∧
      inAABB ⟨0, 1, 0, 4, 0, 4⟩ ⟨0, 1, 1⟩ ∧
      ((1 : Nat), (⟨3, 4, 0, 4, 0, 4⟩ : AABB)) ∈
        [((1 : Nat), (⟨3, 4, 0, 4, 0, 4⟩ : AABB))] ∧
      inAABB ⟨3, 4, 0, 4, 0, 4⟩ ⟨4, 1, 1⟩ ∧
      (-4 : ℚ) ∈ axisShifts BoundaryKind.periodicKind 0 4 ∧
      (0 : ℚ) ∈ axisShifts BoundaryKind.periodicKind 0 4 ∧
      dist2 ⟨0, 1, 1⟩ (shiftPt ⟨4, 1, 1⟩ (-4) 0 0) ≤ (1 : ℚ) ^ 2) ∧
    ((1 : Nat) = 0 ∨
      ((1 : Nat), (⟨3, 4, 0, 4, 0, 4⟩ : AABB)) ∈
        haloCells
          ⟨0, 4, 0, 4, 0, 4, BoundaryKind.periodicKind, BoundaryKind.periodicKind,
            BoundaryKind.periodicKind⟩
          0 ⟨0, 1, 0, 4, 0, 4⟩ 1 [((1 : Nat), (⟨3, 4, 0, 4, 0, 4⟩ : AABB))]) :=
  ⟨⟨by decide, by decide, by decide, by decide, by decide, by simp [axisShifts],
      by simp [axisShifts], by simp [dist2, shiftPt]⟩,
    halo_discovery_complete
      ⟨0, 4, 0, 4, 0, 4, BoundaryKind.periodicKind, BoundaryKind.periodicKind,
        BoundaryKind.periodicKind⟩
      0 ⟨0, 1, 0, 4, 0, 4⟩ 1 1 [((1 : Nat), (⟨3, 4, 0, 4, 0, 4⟩ : AABB))]
      ⟨0, 1, 1⟩ ⟨4, 1, 1⟩ 1 ⟨3, 4, 0, 4, 0, 4⟩ (-4) 0 0
      (by decide) (by decide) (by decide) (by decide) (by decide)
      (by simp [axisShifts]) (by simp [axisShifts]) (by simp [axisShifts])
      (by simp [dist2, shiftPt])⟩

/-! ### Sync layout and the printed halo count (spec section 6;
ipropagator.hpp) -/

/-- **C8.** After every `sync()` call the local particle array is the owned
particles at indices `[0, localCount)` followed immediately by the halo
particles at `[localCount, localCount + haloCount)`; consequently the total
count with halos is at least the owned count, and the halo count printed by
`Propagator::printIterationTimings` — `nParticlesWithHalos() -
nParticles()` — equals the number of halo particles. -/
theorem sync_layout_and_printed_halo_count {α : Type} (owned halos : List α) :
    (DomainState.sync owned halos).particleArray.take
        (DomainState.sync owned halos).nParticles = owned ∧
    (DomainState.sync owned halos).particleArray.drop
        (DomainState.sync owned halos).nParticles = halos ∧
    (DomainState.sync owned halos).particleArray.length =
      (DomainState.sync owned halos).nParticlesWithHalos ∧
    (DomainState.sync owned halos).nParticles ≤
      (DomainState.sync owned halos).nParticlesWithHalos ∧
    printedHaloCount (DomainState.sync owned halos) = halos.length := by
  refine ⟨?_, ?_, ?_, ?_, ?_⟩
  · exact List.take_left owned halos
  · exact List.drop_left owned halos
  · rw [DomainState.particleArray, List.length_append]
    rfl
  · exact Nat.le_add_right _ _
  · rw [printedHaloCount, DomainState.nParticlesWithHalos, DomainState.nParticles]
    show owned.length + halos.length - owned.length = halos.length
    omega

/-! ### Kelvin-Helmholtz initializer box (KelvinHelmholtzGlass::init) -/

/-- **C9.** `KelvinHelmholtzGlass::init` returns, for every rank id, rank
count and particle count argument, the very same bounding box — extents
`[0,1] × [0,1] × [0, 0.0625]` with periodic boundaries on all three axes —
so the box is numerically identical on every rank, as the data model
requires of the process-wide box. -/
theorem kelvin_helmholtz_init_box_rank_independent :
    (∀ rank numRanks cbrtNumPart rank' numRanks' cbrtNumPart' : Nat,
      kelvinHelmholtzGlassInitBox rank numRanks cbrtNumPart =
        kelvinHelmholtzGlassInitBox rank' numRanks' cbrtNumPart') ∧
    ∀ rank numRanks cbrtNumPart : Nat,
      kelvinHelmholtzGlassInitBox rank numRanks cbrtNumPart =
        ⟨0, 1, 0, 1, 0, 1 / 16, BoundaryKind.periodicKind, BoundaryKind.periodicKind,
          BoundaryKind.periodicKind⟩ :=
  ⟨fun _ _ _ _ _ _ => rfl, fun _ _ _ => rfl⟩

/-! ### Selected-particle index lookup
(Propagator::getSelectedParticleIndexes) -/

theorem getSelectedParticleIndexes_foldl (ids : List Nat) (sel : List Nat)
    (acc : List Nat) :
    sel.foldl
      (fun acc selParticleId =>
        let selParticleIndex := ids.findIdx fun x => x == selParticleId
        if selParticleIndex < ids.length then acc ++ [selParticleIndex] else acc)
      acc =
    acc ++ (sel.filter fun s => decide (s ∈ ids)).map (fun s => ids.findIdx fun x => x == s) := by
  induction sel generalizing acc with
  | nil => simp
  | cons s sel ih =>
    rw [List.foldl_cons, ih]
    by_cases hs : s ∈ ids
    · have hlt : (ids.findIdx fun x => x == s) < ids.length :=
        List.findIdx_lt_length.mpr ⟨s, hs, beq_self_eq_true s⟩
      rw [List.filter_cons_of_pos (by simpa using hs), List.map_cons]
      simp only [hlt, if_pos]
      simp
    · have hlen : (ids.findIdx fun x => x == s) = ids.length :=
        List.findIdx_eq_length_of_false (by
          intro x hx
          by_contra hbeq
          rw [Bool.not_eq_false, beq_iff_eq] at hbeq
          exact hs (hbeq ▸ hx))
      rw [List.filter_cons_of_neg (by simpa using hs)]
      simp only [hlen, lt_self_iff_false, if_false]

/-- **C10.** `Propagator::getSelectedParticleIndexes` returns exactly, in
requested order, the index of the first occurrence in the local id field of
each requested id that occurs in it; requested ids that are absent
contribute no entry; every returned index is strictly smaller than the size
of the local id field; and each returned index really is the first
occurrence: the field holds the requested id there and at no earlier
position. -/
theorem getSelectedParticleIndexes_first_occurrences (sel ids : List Nat) :
    getSelectedParticleIndexes sel ids =
      (sel.filter fun s => decide (s ∈ ids)).map (fun s => ids.findIdx fun x => x == s) ∧
    (∀ i ∈ getSelectedParticleIndexes sel ids, i < ids.length) ∧
    (∀ s, s ∈ ids →
      ids.getD (ids.findIdx fun x => x == s) 0 = s ∧
      ∀ j, j < (ids.findIdx fun x => x == s) → ids.getD j 0 ≠ s) := by
  have heq := getSelectedParticleIndexes_foldl ids sel []
  rw [List.nil_append] at heq
  refine ⟨heq, ?_, ?_⟩
  · intro i hi
    rw [getSelectedParticleIndexes, heq] at hi
    obtain ⟨s, hsmem, rfl⟩ := List.mem_map.mp hi
    have hs : s ∈ ids := by
      have := List.mem_filter.mp hsmem
      simpa using this.2
    exact List.findIdx_lt_length.mpr ⟨s, hs, beq_self_eq_true s⟩
  · intro s hs
    have hlt : (ids.findIdx fun x => x == s) < ids.length :=
      List.findIdx_lt_length.mpr ⟨s, hs, beq_self_eq_true s⟩
    constructor
    · have hb := @List.findIdx_getElem _ (fun x => x == s) ids hlt
      rw [List.getD_eq_getElem ids 0 hlt]
      exact beq_iff_eq.mp hb
    · intro j hj
      have hjlen : j < ids.length := lt_trans hj hlt
      rw [List.getD_eq_getElem ids 0 hjlen]
      intro hcontra
      have hfalse := List.not_of_lt_findIdx hj
      rw [hcontra] at hfalse
      rw [beq_self_eq_true] at hfalse
      cases hfalse

/-- Witness for C10: requested ids `[5, 9, 5]` against the local id field
`[7, 5, 5]`: id 9 is absent and contributes nothing; both requests for id 5
yield its first occurrence, index 1, which is in range. -/
theorem getSelectedParticleIndexes_first_occurrences_witness :
    getSelectedParticleIndexes [5, 9, 5] [7, 5, 5] =
      (([5, 9, 5] : List Nat).filter fun s => decide (s ∈ ([7, 5, 5] : List Nat))).map
        (fun s => ([7, 5, 5] : List Nat).findIdx fun x => x == s) ∧
    (1 : Nat) ∈ getSelectedParticleIndexes [5, 9, 5] [7, 5, 5] ∧
    1 < ([7, 5, 5] : List Nat).length :=
  ⟨(getSelectedParticleIndexes_first_occurrences [5, 9, 5] [7, 5, 5]).1, by decide,
    (getSelectedParticleIndexes_first_occurrences [5, 9, 5] [7, 5, 5]).2.1 1 (by decide)⟩
